import Mathlib

/-!
Verification of the local-scope completion engine in `src/complete.ts`
(CodeMirror PHP language support).

The module walks a syntax tree produced by an external incremental parser.
We embed the tree shallowly: a node has a kind name (empty for anonymous
nodes), a byte range, children in document order, and a numeric `id`
modelling the node's object identity (the external parser guarantees that
unedited subtrees keep their node identity; `NodeWeakMap` keys on exactly
that identity).  The scope cache becomes an association list from node ids
to candidate lists, threaded explicitly through the functions that mutate
it in the source.
-/

set_option autoImplicit false

namespace PhpComplete

/-- A completion candidate, `{label, type}` in the source. -/
structure Completion where
  label : String
  type : String
  deriving Repr, DecidableEq

mutual

/-- A syntax-tree node: identity, kind name (empty when anonymous),
byte range `[nfrom, nto)`, and the children in document order. -/
inductive Node where
  | mk (id : Nat) (name : String) (nfrom : Nat) (nto : Nat) (children : NodeList)
  deriving DecidableEq

/-- The children of a node, in document order. -/
inductive NodeList where
  | nil
  | cons (head : Node) (tail : NodeList)
  deriving DecidableEq

end

def Node.id : Node → Nat
  | Node.mk i _ _ _ _ => i

def Node.name : Node → String
  | Node.mk _ nm _ _ _ => nm

def Node.nfrom : Node → Nat
  | Node.mk _ _ f _ _ => f

def Node.nto : Node → Nat
  | Node.mk _ _ _ t _ => t

def Node.children : Node → NodeList
  | Node.mk _ _ _ _ ch => ch

/-- View a `NodeList` as a plain list, for stating properties. -/
def NodeList.toList : NodeList → List Node
  | NodeList.nil => []
  | NodeList.cons m rest => m :: rest.toList

/-- Build a `NodeList` from a plain list, for concrete trees. -/
def NodeList.ofList : List Node → NodeList
  | [] => NodeList.nil
  | m :: rest => NodeList.cons m (NodeList.ofList rest)

/-- `ScopeNodes` from the source: the scope-introducing node kinds. -/
def ScopeNodes : List String :=
  ["Script", "Body", "FunctionDefinition", "ClassDefinition", "LambdaExpression",
   "ForStatement"]

/-- `doc.sliceString(from, to)`: the substring of the document between the
two positions. -/
def sliceString (doc : String) (f t : Nat) : String :=
  String.mk ((doc.toList.drop f).take (t - f))

/-- `node.getChild(kind)`: the first direct child with the given kind name. -/
def getChild (n : Node) (kind : String) : Option Node :=
  n.children.toList.find? (fun c => c.name == kind)

/-- The `gatherCompletions` dispatch table.  The source uses a
null-prototyped object mapping `FunctionDefinition` to `defID("function")`
and `ClassDefinition` to `defID("class")`; because the prototype is null,
every other kind name (including `toString` or `constructor`) has no
entry.  We model the table by the kind tag passed to `defID`. -/
def gatherCompletions (kind : String) : Option String :=
  if kind = "FunctionDefinition" then some "function"
  else if kind = "ClassDefinition" then some "class"
  else none

/-- `defID(type)` applied to a node: looks up the first direct
`VariableName` child and, when present, defines one candidate whose label
is that child's text and whose type is the fixed tag.  (The extractor in
the source always returns `true`; the pruning is handled at the call
site.) -/
def defID (doc : String) (n : Node) (type : String) : List Completion :=
  match getChild n "VariableName" with
  | some idn => [⟨sliceString doc idn.nfrom idn.nto, type⟩]
  | none => []

/-- The scope cache: `NodeWeakMap<readonly Completion[]>`, an identity-keyed
map from nodes to candidate lists. -/
abbrev Cmap := List (Nat × List Completion)

def cmlookup (cache : Cmap) (i : Nat) : Option (List Completion) :=
  match List.find? (fun e => e.1 == i) cache with
  | some e => some e.2
  | none => none

mutual

/-- `getScope(doc, node)`: return the cached candidate list for `node` if
present; otherwise walk the subtree below `node` collecting candidates,
store the list under `node`'s identity, and return it.  The walk skips the
root node itself (the iterator's first visit only clears the `top` flag).
The cache is threaded explicitly: the function returns the list together
with the updated cache. -/
def getScope (doc : String) : Node → Cmap → List Completion × Cmap
  | Node.mk i _ _ _ ch, cache =>
    match cmlookup cache i with
    | some l => (l, cache)
    | none =>
      let p := visitScope doc ch cache
      (p.1, (i, p.1) :: p.2)

/-- The body of `getScope`'s `iterate` visitor, processing a list of
sibling nodes in document order.  For a named node: if the
`gatherCompletions` table has an entry, run the extractor and stop
descending; otherwise if the kind is scope-introducing, stop descending;
otherwise descend into the children.  For an anonymous node: if its span
exceeds 8192, collect it through a recursive `getScope` call (so its
result is cached under its own identity) and stop descending; otherwise
descend into the children. -/
def visitScope (doc : String) : NodeList → Cmap → List Completion × Cmap
  | NodeList.nil, cache => ([], cache)
  | NodeList.cons (Node.mk mi mnm mf mt mch) rest, cache =>
    let p :=
      if mnm ≠ "" then
        match gatherCompletions mnm with
        | some ty => (defID doc (Node.mk mi mnm mf mt mch) ty, cache)
        | none =>
          if mnm ∈ ScopeNodes then ([], cache)
          else visitScope doc mch cache
      else if mt - mf > 8192 then getScope doc (Node.mk mi mnm mf mt mch) cache
      else visitScope doc mch cache
    let q := visitScope doc rest p.2
    (p.1 ++ q.1, q.2)

end

mutual

/-- The candidate list `getScope` computes for a node when no caching is
involved: the pure walk of the node's subtree.  On a coherent cache
`getScope` returns exactly this list. -/
def scopePure (doc : String) : Node → List Completion
  | Node.mk _ _ _ _ ch => childrenPure doc ch

/-- Pure walk over a list of sibling nodes: the per-node cases of
`visitScope`, without the cache.  A large anonymous node's recursive
`getScope` contributes its own pure scope list, which is exactly the walk
of its children, so the two anonymous branches coincide here. -/
def childrenPure (doc : String) : NodeList → List Completion
  | NodeList.nil => []
  | NodeList.cons (Node.mk mi mnm mf mt mch) rest =>
    (if mnm ≠ "" then
       match gatherCompletions mnm with
       | some ty => defID doc (Node.mk mi mnm mf mt mch) ty
       | none =>
         if mnm ∈ ScopeNodes then []
         else childrenPure doc mch
     else childrenPure doc mch) ++ childrenPure doc rest

end

mutual

/-- All nodes of the subtree rooted at a node (the node itself included). -/
def subtreeNodes : Node → List Node
  | Node.mk i nm f t ch => Node.mk i nm f t ch :: subtreeForest ch

/-- All nodes of the subtrees rooted at the nodes of a list. -/
def subtreeForest : NodeList → List Node
  | NodeList.nil => []
  | NodeList.cons m rest => subtreeNodes m ++ subtreeForest rest

end

/-- The `Identifier` regular expression
`[\w\xa1-￿][\w\d\xa1-￿]*` anchored at both ends: whether a
character is matched by the character classes.  `\w` is
`[A-Za-z0-9_]`; both classes also allow the code points from U+00A1 to
U+FFFF (`\d` in the second class is contained in `\w`), so the two
classes denote the same character set. -/
def identChar (c : Char) : Bool :=
  (('a' ≤ c && c ≤ 'z') || ('A' ≤ c && c ≤ 'Z') || ('0' ≤ c && c ≤ '9') || c == '_')
    || (0xa1 ≤ c.toNat && c.toNat ≤ 0xffff)

/-- `Identifier.test(s)`: the anchored regex matches exactly the nonempty
strings all of whose characters are in the class above. -/
def Identifier (s : String) : Bool :=
  match s.toList with
  | [] => false
  | c :: rest => identChar c && rest.all identChar

/-- `dontComplete` from the source: node kinds in which completion never
fires. -/
def dontComplete : List String :=
  ["String", "FormatString", "Comment", "PropertyName"]

/-- A completion request, as `localCompletionSource` sees it.  The external
parser's `resolveInner(pos, -1)` and the `.parent` chain are modelled by
`path`: the resolved innermost node followed by its ancestors, innermost
first (`resolveInner` always returns a node, so in any real request `path`
is nonempty and ends at the tree root). -/
structure CompletionContext where
  doc : String
  pos : Nat
  explicit : Bool
  path : List Node

/-- The non-null result: options, the `from` position, and the `validFor`
predicate (always the `Identifier` pattern in the source). -/
structure CompletionResult where
  options : List Completion
  rFrom : Nat
  validFor : String → Bool

/-- The ancestor walk of `localCompletionSource`: walk the path outward and
for each node whose kind is scope-introducing append that scope's
candidates (`options = options.concat(getScope(...))`, so inner scopes
come first). -/
def collectScopes (doc : String) : List Node → Cmap → List Completion × Cmap
  | [], cache => ([], cache)
  | n :: rest, cache =>
    if n.name ∈ ScopeNodes then
      let p := getScope doc n cache
      let q := collectScopes doc rest p.2
      (p.1 ++ q.1, q.2)
    else collectScopes doc rest cache

/-- `localCompletionSource(context)`: resolve the innermost node; bail out
inside `dontComplete` kinds; classify whether the token looks like a
partial identifier; bail out on non-identifier positions unless the
request is explicit; otherwise merge the candidates of every enclosing
scope and return them with the replacement position and the `Identifier`
pattern.  The cache is threaded explicitly. -/
def localCompletionSource (ctx : CompletionContext) (cache : Cmap) :
    Option CompletionResult × Cmap :=
  match ctx.path with
  | [] => (none, cache)
  | inner :: _ =>
    if inner.name ∈ dontComplete then (none, cache)
    else
      let isWord := inner.name == "VariableName" ||
        (inner.nto - inner.nfrom < 20 &&
          Identifier (sliceString ctx.doc inner.nfrom inner.nto))
      if !isWord && !ctx.explicit then (none, cache)
      else
        let p := collectScopes ctx.doc ctx.path cache
        (some { options := p.1,
                rFrom := if isWord then inner.nfrom else ctx.pos,
                validFor := Identifier }, p.2)

/-- The merged candidate list the ancestor walk produces on a coherent
cache: the concatenation, innermost scope first, of the pure scope lists of
the scope-introducing nodes along the path. -/
def pathScopeOptions (doc : String) (path : List Node) : List Completion :=
  ((path.filter (fun n => decide (n.name ∈ ScopeNodes))).map (scopePure doc)).flatten

/-! ### Concrete data for witnesses

A small tree for the document `function foo() { class Bar { } } $x;`:
a `Script` containing a `FunctionDefinition` (name token `foo` at 9..12,
whose `Body` holds a `ClassDefinition` with name token `Bar` at 23..26),
a trailing `VariableName` and an anonymous `;` token. -/

def wDoc : String := "function foo() { class Bar { } } $x;"

def wTokFoo : Node := Node.mk 3 "VariableName" 9 12 NodeList.nil

def wTokBar : Node := Node.mk 6 "VariableName" 23 26 NodeList.nil

def wCdef : Node := Node.mk 5 "ClassDefinition" 17 30 (NodeList.cons wTokBar NodeList.nil)

def wBody : Node := Node.mk 4 "Body" 15 32 (NodeList.cons wCdef NodeList.nil)

def wFdef : Node :=
  Node.mk 2 "FunctionDefinition" 0 32
    (NodeList.cons wTokFoo (NodeList.cons wBody NodeList.nil))

def wVx : Node := Node.mk 7 "VariableName" 33 35 NodeList.nil

def wSemi : Node := Node.mk 8 "" 35 36 NodeList.nil

def wRoot : Node :=
  Node.mk 1 "Script" 0 36
    (NodeList.cons wFdef (NodeList.cons wVx (NodeList.cons wSemi NodeList.nil)))

/-- Path for a cursor on the `Bar` token. -/
def wPath : List Node := [wTokBar, wCdef, wBody, wFdef, wRoot]

def wCtx : CompletionContext := ⟨wDoc, 26, false, wPath⟩

/-- Path for a cursor right after the trailing `;`: the resolved node is
the anonymous token, which does not look like an identifier. -/
def wPathSemi : List Node := [wSemi, wRoot]

def wCtxExp : CompletionContext := ⟨wDoc, 36, true, wPathSemi⟩

def wCtxNon : CompletionContext := ⟨wDoc, 36, false, wPathSemi⟩

/-- A tree with a large (span 9000 > 8192) anonymous node wrapping a
function definition, for the large-anonymous-node claims. -/

def wbTok : Node := Node.mk 14 "VariableName" 0 3 NodeList.nil

def wbFdef : Node := Node.mk 13 "FunctionDefinition" 0 9000 (NodeList.cons wbTok NodeList.nil)

def wbAnon : Node := Node.mk 12 "" 0 9000 (NodeList.cons wbFdef NodeList.nil)

def wbRoot : Node := Node.mk 11 "Script" 0 9000 (NodeList.cons wbAnon NodeList.nil)

def wbDoc : String := "foo();"

/-- A node whose kind name collides with an `Object.prototype` property. -/
def wProto : Node := Node.mk 21 "toString" 0 5 (NodeList.cons wFdef NodeList.nil)

/-! ### Cache coherence

`NodeWeakMap` keys on node identity, and the external parser guarantees
distinct identities for distinct live nodes.  `IdsInj` states that the ids
of a tree are injective; `Coherent` states that every cache entry whose key
is the id of a tree node holds exactly that node's pure scope list.  The
empty (cold) cache is trivially coherent, and the main theorem below shows
coherence is preserved by every `getScope` call. -/

def IdsInj (T : Node) : Prop :=
  ∀ m₁ ∈ subtreeNodes T, ∀ m₂ ∈ subtreeNodes T, m₁.id = m₂.id → m₁ = m₂

def Coherent (doc : String) (T : Node) (cache : Cmap) : Prop :=
  ∀ m ∈ subtreeNodes T, ∀ e ∈ cache, e.1 = m.id → e.2 = scopePure doc m

instance (T : Node) : Decidable (IdsInj T) := by
  unfold IdsInj
  infer_instance

instance (doc : String) (T : Node) (cache : Cmap) : Decidable (Coherent doc T cache) := by
  unfold Coherent
  infer_instance

theorem coherent_nil (doc : String) (T : Node) : Coherent doc T [] := by
  intro m _ e he
  simp at he

theorem cmlookup_some_mem {cache : Cmap} {i : Nat} {l : List Completion}
    (h : cmlookup cache i = some l) : ∃ e ∈ cache, e.1 = i ∧ e.2 = l := by
  unfold cmlookup at h
  cases hf : List.find? (fun e => e.1 == i) cache with
  | none => rw [hf] at h; exact absurd h (by simp)
  | some e =>
    rw [hf] at h
    simp only [Option.some.injEq] at h
    refine ⟨e, List.mem_of_find?_eq_some hf, ?_, h⟩
    have := List.find?_some hf
    simpa using this

theorem cmlookup_eq_none {cache : Cmap} {i : Nat}
    (h : cmlookup cache i = none) : ∀ e ∈ cache, e.1 ≠ i := by
  intro e he
  unfold cmlookup at h
  cases hf : List.find? (fun e => e.1 == i) cache with
  | some e => rw [hf] at h; exact absurd h (by simp)
  | none =>
    have := List.find?_eq_none.mp hf e he
    simpa using this

theorem cmlookup_cons_self (i : Nat) (l : List Completion) (cache : Cmap) :
    cmlookup ((i, l) :: cache) i = some l := by
  simp [cmlookup, List.find?]

theorem cmlookup_isSome_append (pre cache : Cmap) (i : Nat)
    (h : (cmlookup cache i).isSome) : (cmlookup (pre ++ cache) i).isSome := by
  unfold cmlookup at h ⊢
  cases hf : List.find? (fun e => e.1 == i) (pre ++ cache) with
  | some e2 => simp
  | none =>
    rw [List.find?_eq_none] at hf
    cases hc : List.find? (fun e => e.1 == i) cache with
    | none => rw [hc] at h; simp at h
    | some e =>
      have hmem := List.mem_of_find?_eq_some hc
      have hp := List.find?_some hc
      exact absurd hp (by simpa using hf e (List.mem_append_right pre hmem))

/-- On a coherent cache, a present entry for a tree node's id can only hold
that node's pure scope list. -/
theorem cmlookup_coherent {doc : String} {T : Node} {cache : Cmap} {m : Node}
    (hcoh : Coherent doc T cache) (hm : m ∈ subtreeNodes T)
    (hs : (cmlookup cache m.id).isSome) :
    cmlookup cache m.id = some (scopePure doc m) := by
  cases hl : cmlookup cache m.id with
  | none => rw [hl] at hs; simp at hs
  | some l =>
    obtain ⟨e, he, he1, he2⟩ := cmlookup_some_mem hl
    rw [hcoh m hm e he he1] at he2
    rw [he2]

theorem subtreeNodes_self_mem (n : Node) : n ∈ subtreeNodes n := by
  cases n with
  | mk i nm f t ch => rw [subtreeNodes]; exact List.mem_cons_self _ _

/-! ### `getScope` computes the pure scope list

The central functional-correctness theorem: on a coherent cache, `getScope`
returns exactly the pure walk of its node, and the updated cache is again
coherent.  The two statements are proved by mutual structural induction
mirroring `getScope`/`visitScope`. -/

mutual

theorem getScope_ok (doc : String) (T : Node) (hinj : IdsInj T) :
    ∀ n : Node, ∀ cache : Cmap, subtreeNodes n ⊆ subtreeNodes T →
      Coherent doc T cache →
      (getScope doc n cache).1 = scopePure doc n ∧
        Coherent doc T (getScope doc n cache).2
  | Node.mk i nm f t ch, cache, hsub, hcoh => by
    have hmem : Node.mk i nm f t ch ∈ subtreeNodes T :=
      hsub (subtreeNodes_self_mem _)
    rw [getScope]
    cases hc : cmlookup cache i with
    | some l =>
      refine ⟨?_, hcoh⟩
      obtain ⟨e, he, he1, he2⟩ := cmlookup_some_mem hc
      have := hcoh _ hmem e he (by simpa [Node.id] using he1)
      simp [← he2, this]
    | none =>
      have hch : subtreeForest ch ⊆ subtreeNodes T := fun x hx =>
        hsub (by rw [subtreeNodes]; exact List.mem_cons_of_mem _ hx)
      have h1 := visitScope_ok doc T hinj ch cache hch hcoh
      refine ⟨by simpa [scopePure] using h1.1, ?_⟩
      intro m hm e he hei
      rcases List.mem_cons.mp he with he | he
      · have hideq : m.id = (Node.mk i nm f t ch).id := by
          rw [← hei, he, Node.id]
        have : m = Node.mk i nm f t ch := hinj m hm _ hmem hideq
        subst this
        rw [he]
        simpa [scopePure] using h1.1
      · exact h1.2 m hm e he hei

theorem visitScope_ok (doc : String) (T : Node) (hinj : IdsInj T) :
    ∀ l : NodeList, ∀ cache : Cmap, subtreeForest l ⊆ subtreeNodes T →
      Coherent doc T cache →
      (visitScope doc l cache).1 = childrenPure doc l ∧
        Coherent doc T (visitScope doc l cache).2
  | NodeList.nil, cache, _, hcoh => ⟨rfl, hcoh⟩
  | NodeList.cons (Node.mk mi mnm mf mt mch) rest, cache, hsub, hcoh => by
    have hsubm : subtreeNodes (Node.mk mi mnm mf mt mch) ⊆ subtreeNodes T := fun x hx =>
      hsub (by rw [subtreeForest]; exact List.mem_append_left _ hx)
    have hsubmch : subtreeForest mch ⊆ subtreeNodes T := fun x hx =>
      hsubm (by rw [subtreeNodes]; exact List.mem_cons_of_mem _ hx)
    have hsubrest : subtreeForest rest ⊆ subtreeNodes T := fun x hx =>
      hsub (by rw [subtreeForest]; exact List.mem_append_right _ hx)
    have hhead :
        ((if mnm ≠ "" then
            match gatherCompletions mnm with
            | some ty => (defID doc (Node.mk mi mnm mf mt mch) ty, cache)
            | none =>
              if mnm ∈ ScopeNodes then ([], cache)
              else visitScope doc mch cache
          else if mt - mf > 8192 then getScope doc (Node.mk mi mnm mf mt mch) cache
          else visitScope doc mch cache).1 =
          (if mnm ≠ "" then
            match gatherCompletions mnm with
            | some ty => defID doc (Node.mk mi mnm mf mt mch) ty
            | none =>
              if mnm ∈ ScopeNodes then []
              else childrenPure doc mch
          else childrenPure doc mch)) ∧
        Coherent doc T
          (if mnm ≠ "" then
            match gatherCompletions mnm with
            | some ty => (defID doc (Node.mk mi mnm mf mt mch) ty, cache)
            | none =>
              if mnm ∈ ScopeNodes then ([], cache)
              else visitScope doc mch cache
          else if mt - mf > 8192 then getScope doc (Node.mk mi mnm mf mt mch) cache
          else visitScope doc mch cache).2 := by
      by_cases hnm : mnm ≠ ""
      · simp only [if_pos hnm]
        cases hg : gatherCompletions mnm with
        | some ty => exact ⟨rfl, hcoh⟩
        | none =>
          by_cases hsc : mnm ∈ ScopeNodes
          · simp only [if_pos hsc]
            exact ⟨by simp, hcoh⟩
          · simp only [if_neg hsc]
            exact visitScope_ok doc T hinj mch cache hsubmch hcoh
      · simp only [if_neg hnm]
        by_cases hbig : mt - mf > 8192
        · simp only [if_pos hbig]
          have h := getScope_ok doc T hinj (Node.mk mi mnm mf mt mch) cache hsubm hcoh
          exact ⟨by simpa [scopePure] using h.1, h.2⟩
        · simp only [if_neg hbig]
          exact visitScope_ok doc T hinj mch cache hsubmch hcoh
    rw [visitScope, childrenPure]
    have hq := visitScope_ok doc T hinj rest _ hsubrest hhead.2
    exact ⟨by rw [hhead.1, hq.1], hq.2⟩

end

/-! ### Size and self-membership facts -/

mutual

theorem sizeOf_mem_subtreeNodes : ∀ (n m : Node), m ∈ subtreeNodes n → sizeOf m ≤ sizeOf n
  | Node.mk i nm f t ch, m, hm => by
    rw [subtreeNodes] at hm
    rcases List.mem_cons.mp hm with h | h
    · rw [h]
    · have h1 := sizeOf_mem_subtreeForest ch m h
      have h2 : sizeOf ch < sizeOf (Node.mk i nm f t ch) := by
        simp only [Node.mk.sizeOf_spec]
        omega
      omega

theorem sizeOf_mem_subtreeForest : ∀ (l : NodeList) (m : Node),
    m ∈ subtreeForest l → sizeOf m ≤ sizeOf l
  | NodeList.nil, m, hm => by
    rw [subtreeForest] at hm
    exact absurd hm (List.not_mem_nil m)
  | NodeList.cons hd tl, m, hm => by
    rw [subtreeForest] at hm
    have h2 : sizeOf hd < sizeOf (NodeList.cons hd tl) := by
      simp only [NodeList.cons.sizeOf_spec]
      omega
    have h3 : sizeOf tl < sizeOf (NodeList.cons hd tl) := by
      simp only [NodeList.cons.sizeOf_spec]
      omega
    rcases List.mem_append.mp hm with h | h
    · have h1 := sizeOf_mem_subtreeNodes hd m h
      omega
    · have h1 := sizeOf_mem_subtreeForest tl m h
      omega

end

/-- A node is never a member of the forest of its own children. -/
theorem not_self_mem_subtreeForest (i : Nat) (nm : String) (f t : Nat) (ch : NodeList) :
    Node.mk i nm f t ch ∉ subtreeForest ch := by
  intro h
  have h1 := sizeOf_mem_subtreeForest ch _ h
  have h2 : sizeOf ch < sizeOf (Node.mk i nm f t ch) := by
    simp only [Node.mk.sizeOf_spec]
    omega
  omega

/-! ### The cache only grows, and only with subtree keys

Every `getScope` call returns the input cache extended, on the left, with
entries whose keys are ids of nodes of the subtree it was called on.  This
is the basis for the write-once cache claims. -/

mutual

theorem getScope_cache_extends (doc : String) :
    ∀ (n : Node) (cache : Cmap),
      ∃ pre, (getScope doc n cache).2 = pre ++ cache ∧
        ∀ e ∈ pre, e.1 ∈ (subtreeNodes n).map Node.id
  | Node.mk i nm f t ch, cache => by
    rw [getScope]
    cases hc : cmlookup cache i with
    | some l => exact ⟨[], rfl, by simp⟩
    | none =>
      obtain ⟨pre, hp, hids⟩ := visitScope_cache_extends doc ch cache
      refine ⟨(i, (visitScope doc ch cache).1) :: pre, by simp [hp], ?_⟩
      intro e he
      rcases List.mem_cons.mp he with he | he
      · rw [he]
        rw [subtreeNodes]
        exact List.mem_map_of_mem Node.id (List.mem_cons_self _ _)
      · have := hids e he
        rw [subtreeNodes]
        simp only [List.map_cons, List.mem_cons]
        exact Or.inr this

theorem visitScope_cache_extends (doc : String) :
    ∀ (l : NodeList) (cache : Cmap),
      ∃ pre, (visitScope doc l cache).2 = pre ++ cache ∧
        ∀ e ∈ pre, e.1 ∈ (subtreeForest l).map Node.id
  | NodeList.nil, cache => ⟨[], rfl, by simp⟩
  | NodeList.cons (Node.mk mi mnm mf mt mch) rest, cache => by
    have hforest :
        subtreeForest (NodeList.cons (Node.mk mi mnm mf mt mch) rest) =
          subtreeNodes (Node.mk mi mnm mf mt mch) ++ subtreeForest rest := by
      rw [subtreeForest]
    have hchsub : ∀ j, j ∈ (subtreeForest mch).map Node.id →
        j ∈ (subtreeForest (NodeList.cons (Node.mk mi mnm mf mt mch) rest)).map Node.id := by
      intro j hj
      rw [hforest]
      simp only [List.map_append, List.mem_append]
      left
      rw [subtreeNodes]
      simp only [List.map_cons, List.mem_cons]
      exact Or.inr hj
    have hmsub : ∀ j, j ∈ (subtreeNodes (Node.mk mi mnm mf mt mch)).map Node.id →
        j ∈ (subtreeForest (NodeList.cons (Node.mk mi mnm mf mt mch) rest)).map Node.id := by
      intro j hj
      rw [hforest]
      simp only [List.map_append, List.mem_append]
      exact Or.inl hj
    have hrsub : ∀ j, j ∈ (subtreeForest rest).map Node.id →
        j ∈ (subtreeForest (NodeList.cons (Node.mk mi mnm mf mt mch) rest)).map Node.id := by
      intro j hj
      rw [hforest]
      simp only [List.map_append, List.mem_append]
      exact Or.inr hj
    rw [visitScope]
    by_cases hnm : mnm ≠ ""
    · simp only [if_pos hnm]
      cases hg : gatherCompletions mnm with
      | some ty =>
        obtain ⟨preQ, hq, hqids⟩ := visitScope_cache_extends doc rest cache
        exact ⟨preQ, hq, fun e he => hrsub _ (hqids e he)⟩
      | none =>
        by_cases hsc : mnm ∈ ScopeNodes
        · simp only [if_pos hsc]
          obtain ⟨preQ, hq, hqids⟩ := visitScope_cache_extends doc rest cache
          exact ⟨preQ, hq, fun e he => hrsub _ (hqids e he)⟩
        · simp only [if_neg hsc]
          obtain ⟨preP, hp, hpids⟩ := visitScope_cache_extends doc mch cache
          obtain ⟨preQ, hq, hqids⟩ :=
            visitScope_cache_extends doc rest (visitScope doc mch cache).2
          refine ⟨preQ ++ preP, by rw [hq, hp, List.append_assoc], ?_⟩
          intro e he
          rcases List.mem_append.mp he with he | he
          · exact hrsub _ (hqids e he)
          · exact hchsub _ (hpids e he)
    · simp only [if_neg hnm]
      by_cases hbig : mt - mf > 8192
      · simp only [if_pos hbig]
        obtain ⟨preP, hp, hpids⟩ :=
          getScope_cache_extends doc (Node.mk mi mnm mf mt mch) cache
        obtain ⟨preQ, hq, hqids⟩ :=
          visitScope_cache_extends doc rest (getScope doc (Node.mk mi mnm mf mt mch) cache).2
        refine ⟨preQ ++ preP, by rw [hq, hp, List.append_assoc], ?_⟩
        intro e he
        rcases List.mem_append.mp he with he | he
        · exact hrsub _ (hqids e he)
        · exact hmsub _ (hpids e he)
      · simp only [if_neg hbig]
        obtain ⟨preP, hp, hpids⟩ := visitScope_cache_extends doc mch cache
        obtain ⟨preQ, hq, hqids⟩ :=
          visitScope_cache_extends doc rest (visitScope doc mch cache).2
        refine ⟨preQ ++ preP, by rw [hq, hp, List.append_assoc], ?_⟩
        intro e he
        rcases List.mem_append.mp he with he | he
        · exact hrsub _ (hqids e he)
        · exact hchsub _ (hpids e he)

end

/-! ### The ancestor walk of `localCompletionSource` -/

theorem collectScopes_ok (doc : String) (T : Node) (hinj : IdsInj T) :
    ∀ (path : List Node) (cache : Cmap),
      (∀ m ∈ path, subtreeNodes m ⊆ subtreeNodes T) →
      Coherent doc T cache →
      (collectScopes doc path cache).1 = pathScopeOptions doc path ∧
        Coherent doc T (collectScopes doc path cache).2 := by
  intro path
  induction path with
  | nil => exact fun cache _ hcoh => ⟨rfl, hcoh⟩
  | cons n rest ih =>
    intro cache hsub hcoh
    rw [collectScopes]
    by_cases hs : n.name ∈ ScopeNodes
    · simp only [if_pos hs]
      have hg := getScope_ok doc T hinj n cache (hsub n (List.mem_cons_self _ _)) hcoh
      have hr := ih _ (fun m hm => hsub m (List.mem_cons_of_mem _ hm)) hg.2
      refine ⟨?_, hr.2⟩
      rw [hg.1, hr.1]
      simp [pathScopeOptions, hs]
    · simp only [if_neg hs]
      have hr := ih cache (fun m hm => hsub m (List.mem_cons_of_mem _ hm)) hcoh
      refine ⟨?_, hr.2⟩
      rw [hr.1]
      simp [pathScopeOptions, hs]

/-! ### Cache-hit helpers -/

/-- A `getScope` call that finds a cache entry returns it verbatim and
leaves the cache untouched. -/
theorem getScope_hit (doc : String) (n : Node) (cache : Cmap) (l : List Completion)
    (h : cmlookup cache n.id = some l) : getScope doc n cache = (l, cache) := by
  cases n with
  | mk i nm f t ch =>
    rw [getScope]
    simp only [Node.id] at h
    rw [h]

/-- After any `getScope` call the returned list is stored under the
argument node's identity. -/
theorem getScope_stores (doc : String) (n : Node) (cache : Cmap) :
    cmlookup (getScope doc n cache).2 n.id = some (getScope doc n cache).1 := by
  cases n with
  | mk i nm f t ch =>
    simp only [Node.id]
    rw [getScope]
    cases hc : cmlookup cache i with
    | some l => simpa using hc
    | none => exact cmlookup_cons_self _ _ _

/-! ### Unfolding lemmas for `localCompletionSource` -/

theorem localCompletionSource_nil (ctx : CompletionContext) (cache : Cmap)
    (hpath : ctx.path = []) : localCompletionSource ctx cache = (none, cache) := by
  unfold localCompletionSource
  rw [hpath]

theorem localCompletionSource_cons (ctx : CompletionContext) (cache : Cmap)
    (inner : Node) (rest : List Node) (hpath : ctx.path = inner :: rest) :
    localCompletionSource ctx cache =
      if inner.name ∈ dontComplete then (none, cache)
      else if (!(inner.name == "VariableName" ||
          (decide (inner.nto - inner.nfrom < 20) &&
            Identifier (sliceString ctx.doc inner.nfrom inner.nto))) && !ctx.explicit) = true
      then (none, cache)
      else (some { options := (collectScopes ctx.doc ctx.path cache).1,
                   rFrom := if (inner.name == "VariableName" ||
                       (decide (inner.nto - inner.nfrom < 20) &&
                         Identifier (sliceString ctx.doc inner.nfrom inner.nto))) = true
                     then inner.nfrom else ctx.pos,
                   validFor := Identifier }, (collectScopes ctx.doc ctx.path cache).2) := by
  unfold localCompletionSource
  rw [hpath]

/-! ### Claims -/

/-- Claim C1: for a completion request whose resolved inner node sits
below scope-introducing ancestors, the non-null result's options list is
the concatenation of the per-scope candidate lists (`getScope`'s value,
which on a coherent cache is the pure scope walk) of the scope-introducing
nodes along the chain from the resolved node outward, innermost first. -/
theorem localCompletionSource_merges_ancestor_scopes (T : Node) (ctx : CompletionContext)
    (cache c2 : Cmap) (r : CompletionResult)
    (hinj : IdsInj T)
    (hsub : ∀ m ∈ ctx.path, subtreeNodes m ⊆ subtreeNodes T)
    (hcoh : Coherent ctx.doc T cache)
    (hrun : localCompletionSource ctx cache = (some r, c2)) :
    r.options = pathScopeOptions ctx.doc ctx.path := by
  cases hp : ctx.path with
  | nil =>
    rw [localCompletionSource_nil ctx cache hp] at hrun
    simp at hrun
  | cons inner rest =>
    rw [localCompletionSource_cons ctx cache inner rest hp] at hrun
    rw [hp] at hrun hsub
    by_cases h1 : inner.name ∈ dontComplete
    · rw [if_pos h1] at hrun
      simp at hrun
    · rw [if_neg h1] at hrun
      split at hrun
      · simp at hrun
      · have hopt := (collectScopes_ok ctx.doc T hinj (inner :: rest) cache hsub hcoh).1
        rw [Prod.mk.injEq] at hrun
        obtain ⟨hsome, -⟩ := hrun
        rw [Option.some.injEq] at hsome
        rw [← hsome]
        simpa using hopt

/-- Claim C1 witness: on the concrete tree, completing at the `Bar` token
yields exactly the class binding of the enclosing body scope followed by
the function binding of the script scope. -/
theorem localCompletionSource_merges_ancestor_scopes_witness :
    ({ options := [⟨"Bar", "class"⟩, ⟨"foo", "function"⟩], rFrom := 23,
        validFor := Identifier } : CompletionResult).options =
      pathScopeOptions wDoc wCtx.path :=
  localCompletionSource_merges_ancestor_scopes wRoot wCtx []
    ((localCompletionSource wCtx []).2)
    { options := [⟨"Bar", "class"⟩, ⟨"foo", "function"⟩], rFrom := 23,
      validFor := Identifier }
    (by decide) (by decide) (coherent_nil wDoc wRoot) (by rfl)

/-- Claim C2: when a `FunctionDefinition` (resp. `ClassDefinition`) node
with a direct `VariableName` child is visited by the scope walk, it
contributes exactly one candidate — the name child's text with kind tag
`function` (resp. `class`) — and nothing from its parameters or body leaks
into the enclosing scope, since the walk does not descend into it. -/
theorem definition_single_candidate (doc : String) (m idn : Node) (rest : NodeList)
    (hid : getChild m "VariableName" = some idn) :
    (m.name = "FunctionDefinition" →
      childrenPure doc (NodeList.cons m rest) =
        ⟨sliceString doc idn.nfrom idn.nto, "function"⟩ :: childrenPure doc rest) ∧
    (m.name = "ClassDefinition" →
      childrenPure doc (NodeList.cons m rest) =
        ⟨sliceString doc idn.nfrom idn.nto, "class"⟩ :: childrenPure doc rest) := by
  cases m with
  | mk mi mnm mf mt mch =>
    constructor <;> intro hname <;> simp only [Node.name] at hname <;> subst hname <;>
      rw [childrenPure] <;> simp [gatherCompletions, defID, hid]

/-- Claim C2 witness: the concrete function definition contributes exactly
the candidate `foo` tagged `function`. -/
theorem definition_single_candidate_witness :
    (wFdef.name = "FunctionDefinition" →
      childrenPure wDoc (NodeList.cons wFdef NodeList.nil) =
        ⟨sliceString wDoc wTokFoo.nfrom wTokFoo.nto, "function"⟩ ::
          childrenPure wDoc NodeList.nil) ∧
    (wFdef.name = "ClassDefinition" →
      childrenPure wDoc (NodeList.cons wFdef NodeList.nil) =
        ⟨sliceString wDoc wTokFoo.nfrom wTokFoo.nto, "class"⟩ ::
          childrenPure wDoc NodeList.nil) :=
  definition_single_candidate wDoc wFdef wTokFoo NodeList.nil (by decide)

/-- Claim C3: the first `getScope` call stores its computed list under the
node's identity, and a second call on the resulting cache returns exactly
that stored list with the cache unchanged — identity reuse, not a
re-walk. -/
theorem getScope_caches_and_returns_verbatim (doc : String) (n : Node) (cache : Cmap) :
    cmlookup (getScope doc n cache).2 n.id = some (getScope doc n cache).1 ∧
    getScope doc n (getScope doc n cache).2 =
      ((getScope doc n cache).1, (getScope doc n cache).2) :=
  ⟨getScope_stores doc n cache,
    getScope_hit doc n _ _ (getScope_stores doc n cache)⟩

/-- Claim C4: with the cursor inside a `String`, `FormatString`, `Comment`
or `PropertyName` node, `localCompletionSource` returns null whatever the
explicit flag: the exclusion check comes before the explicit-invocation
escape hatch. -/
theorem dontComplete_returns_null (ctx : CompletionContext) (cache : Cmap)
    (inner : Node) (rest : List Node)
    (hpath : ctx.path = inner :: rest)
    (hdc : inner.name ∈ dontComplete) :
    localCompletionSource ctx cache = (none, cache) := by
  rw [localCompletionSource_cons ctx cache inner rest hpath, if_pos hdc]

/-- Claim C4 witness: an explicit request inside a string literal returns
null. -/
theorem dontComplete_returns_null_witness :
    localCompletionSource ⟨wDoc, 3, true, [Node.mk 9 "String" 0 7 NodeList.nil]⟩ [] =
      (none, []) :=
  dontComplete_returns_null _ _ (Node.mk 9 "String" 0 7 NodeList.nil) [] rfl (by decide)

/-- Claim C5: at a position where the token is not a partial identifier
(kind not `VariableName`, and the length bound or the identifier pattern
fails) and the node kind is not excluded, a non-explicit request returns
null while an explicit request returns the full ancestor-scope candidate
set with the replacement position at the cursor. -/
theorem nonword_token_explicit_behavior (T : Node) (ctx : CompletionContext)
    (cache : Cmap) (inner : Node) (rest : List Node)
    (hpath : ctx.path = inner :: rest)
    (hnd : inner.name ∉ dontComplete)
    (hkind : inner.name ≠ "VariableName")
    (hfail : 20 ≤ inner.nto - inner.nfrom ∨
      Identifier (sliceString ctx.doc inner.nfrom inner.nto) = false)
    (hinj : IdsInj T)
    (hsub : ∀ m ∈ ctx.path, subtreeNodes m ⊆ subtreeNodes T)
    (hcoh : Coherent ctx.doc T cache) :
    (ctx.explicit = false → (localCompletionSource ctx cache).1 = none) ∧
    (ctx.explicit = true → (localCompletionSource ctx cache).1 =
      some ⟨pathScopeOptions ctx.doc ctx.path, ctx.pos, Identifier⟩) := by
  have hw : (inner.name == "VariableName" ||
      (decide (inner.nto - inner.nfrom < 20) &&
        Identifier (sliceString ctx.doc inner.nfrom inner.nto))) = false := by
    have h1 : (inner.name == "VariableName") = false := by
      simpa using hkind
    rcases hfail with h2 | h2
    · have h3 : decide (inner.nto - inner.nfrom < 20) = false := by
        simp
        omega
      simp [h1, h3]
    · simp [h1, h2]
  rw [localCompletionSource_cons ctx cache inner rest hpath]
  rw [hpath] at hsub ⊢
  rw [if_neg hnd]
  have hopt := (collectScopes_ok ctx.doc T hinj (inner :: rest) cache hsub hcoh).1
  constructor
  · intro hx
    simp [hw, hx]
  · intro hx
    simp [hw, hx, hopt]

/-- Claim C5 witness: at the anonymous `;` token of the concrete tree, the
non-explicit request returns null and the explicit request returns the
script scope's full candidate set at the cursor position. -/
theorem nonword_token_explicit_behavior_witness :
    ((wCtxNon.explicit = false → (localCompletionSource wCtxNon []).1 = none) ∧
      (wCtxNon.explicit = true → (localCompletionSource wCtxNon []).1 =
        some ⟨pathScopeOptions wCtxNon.doc wCtxNon.path, wCtxNon.pos, Identifier⟩)) ∧
    ((wCtxExp.explicit = false → (localCompletionSource wCtxExp []).1 = none) ∧
      (wCtxExp.explicit = true → (localCompletionSource wCtxExp []).1 =
        some ⟨pathScopeOptions wCtxExp.doc wCtxExp.path, wCtxExp.pos, Identifier⟩)) :=
  ⟨nonword_token_explicit_behavior wRoot wCtxNon [] wSemi [wRoot] rfl (by decide)
      (by decide) (Or.inr (by decide)) (by decide) (by decide)
      (coherent_nil wDoc wRoot),
    nonword_token_explicit_behavior wRoot wCtxExp [] wSemi [wRoot] rfl (by decide)
      (by decide) (Or.inr (by decide)) (by decide) (by decide)
      (coherent_nil wDoc wRoot)⟩

/-- Claim C6 counterexample: the claim says the `Identifier` pattern
rejects every string whose first character is a decimal digit, but `\w` in
the first character class already contains the digits, so the pattern
accepts `1abc`. -/
theorem identifier_digit_start_cex :
    Identifier "1abc" = true ∧ '1'.isDigit = true := by decide

/-- Claim C6 (amended): the `Identifier` pattern matches exactly the
nonempty strings all of whose characters are word characters or in the
extended range U+00A1..U+FFFF; the first character is drawn from the same
class, so strings starting with a digit are accepted, not rejected. -/
theorem identifier_matches_word_strings (s : String) :
    Identifier s = true ↔ s.toList ≠ [] ∧ ∀ c ∈ s.toList, identChar c = true := by
  unfold Identifier
  cases h : s.toList with
  | nil => simp
  | cons c cs => simp [List.all_eq_true]

/-- Claim C7: a visited anonymous node with span over 8192 is not descended
into directly: it is collected through a recursive `getScope` call whose
candidates are spliced, in order, into the current list and whose result
ends up cached under the anonymous node's own identity; an anonymous node
at or below the threshold is descended into normally. -/
theorem large_anon_node_cached_and_spliced (doc : String) (T m : Node) (rest : NodeList)
    (cache : Cmap)
    (hinj : IdsInj T)
    (hsub : subtreeForest (NodeList.cons m rest) ⊆ subtreeNodes T)
    (hcoh : Coherent doc T cache)
    (hanon : m.name = "") :
    (m.nto - m.nfrom > 8192 →
      (visitScope doc (NodeList.cons m rest) cache).1 =
          scopePure doc m ++ childrenPure doc rest ∧
        cmlookup (visitScope doc (NodeList.cons m rest) cache).2 m.id =
          some (scopePure doc m)) ∧
    (m.nto - m.nfrom ≤ 8192 →
      (visitScope doc (NodeList.cons m rest) cache).1 =
        childrenPure doc m.children ++ childrenPure doc rest) := by
  cases m with
  | mk mi mnm mf mt mch =>
    simp only [Node.name] at hanon
    subst hanon
    have hsubm : subtreeNodes (Node.mk mi "" mf mt mch) ⊆ subtreeNodes T := fun x hx =>
      hsub (by rw [subtreeForest]; exact List.mem_append_left _ hx)
    have hsubmch : subtreeForest mch ⊆ subtreeNodes T := fun x hx =>
      hsubm (by rw [subtreeNodes]; exact List.mem_cons_of_mem _ hx)
    have hsubrest : subtreeForest rest ⊆ subtreeNodes T := fun x hx =>
      hsub (by rw [subtreeForest]; exact List.mem_append_right _ hx)
    have hmem : Node.mk mi "" mf mt mch ∈ subtreeNodes T :=
      hsubm (subtreeNodes_self_mem _)
    constructor
    · intro hbig
      simp only [Node.nto, Node.nfrom] at hbig
      have hg := getScope_ok doc T hinj (Node.mk mi "" mf mt mch) cache hsubm hcoh
      have hq := visitScope_ok doc T hinj rest
        (getScope doc (Node.mk mi "" mf mt mch) cache).2 hsubrest hg.2
      rw [visitScope, if_neg (by simp), if_pos hbig]
      refine ⟨by rw [hg.1, hq.1], ?_⟩
      have h1 := getScope_stores doc (Node.mk mi "" mf mt mch) cache
      rw [hg.1] at h1
      obtain ⟨pre, hpre, -⟩ :=
        visitScope_cache_extends doc rest (getScope doc (Node.mk mi "" mf mt mch) cache).2
      have hsome : (cmlookup
          ((visitScope doc rest (getScope doc (Node.mk mi "" mf mt mch) cache).2).2)
          (Node.mk mi "" mf mt mch).id).isSome := by
        rw [hpre]
        exact cmlookup_isSome_append pre _ _ (by rw [h1]; rfl)
      exact cmlookup_coherent hq.2 hmem hsome
    · intro hsmall
      simp only [Node.nto, Node.nfrom] at hsmall
      have hg := visitScope_ok doc T hinj mch cache hsubmch hcoh
      have hq := visitScope_ok doc T hinj rest (visitScope doc mch cache).2 hsubrest hg.2
      rw [visitScope, if_neg (by simp), if_neg (by omega)]
      simp only [Node.children]
      rw [hg.1, hq.1]

/-- Claim C7 witness: the concrete span-9000 anonymous node is collected
through `getScope` (its function candidate spliced into the current list)
and cached under its own identity, id 12. -/
theorem large_anon_node_cached_and_spliced_witness :
    (wbAnon.nto - wbAnon.nfrom > 8192 →
      (visitScope wbDoc (NodeList.cons wbAnon NodeList.nil) []).1 =
          scopePure wbDoc wbAnon ++ childrenPure wbDoc NodeList.nil ∧
        cmlookup (visitScope wbDoc (NodeList.cons wbAnon NodeList.nil) []).2 wbAnon.id =
          some (scopePure wbDoc wbAnon)) ∧
    (wbAnon.nto - wbAnon.nfrom ≤ 8192 →
      (visitScope wbDoc (NodeList.cons wbAnon NodeList.nil) []).1 =
        childrenPure wbDoc wbAnon.children ++ childrenPure wbDoc NodeList.nil) :=
  large_anon_node_cached_and_spliced wbDoc wbRoot wbAnon NodeList.nil []
    (by decide) (by decide) (coherent_nil wbDoc wbRoot) (by decide)

/-- Claim C8: a named node whose kind has no entry in the dispatch table
(including kinds named like `Object.prototype` properties, thanks to the
null prototype) and is not scope-introducing defines no candidate and is
simply descended into; the walk is total, so absence of a case is safe. -/
theorem unknown_kind_descends_safely (doc : String) (m : Node) (rest : NodeList)
    (h0 : m.name ≠ "")
    (h1 : m.name ≠ "FunctionDefinition")
    (h2 : m.name ≠ "ClassDefinition")
    (h3 : m.name ∉ ScopeNodes) :
    gatherCompletions m.name = none ∧
    childrenPure doc (NodeList.cons m rest) =
      childrenPure doc m.children ++ childrenPure doc rest := by
  have hg : gatherCompletions m.name = none := by
    unfold gatherCompletions
    rw [if_neg h1, if_neg h2]
  refine ⟨hg, ?_⟩
  cases m with
  | mk mi mnm mf mt mch =>
    simp only [Node.name] at h0 hg h3
    rw [childrenPure, if_pos h0, hg, if_neg h3]
    simp only [Node.children]

/-- Claim C8 witness: a node whose kind name is `toString` defines nothing
and its children are walked normally. -/
theorem unknown_kind_descends_safely_witness :
    gatherCompletions wProto.name = none ∧
    childrenPure wDoc (NodeList.cons wProto NodeList.nil) =
      childrenPure wDoc wProto.children ++ childrenPure wDoc NodeList.nil :=
  unknown_kind_descends_safely wDoc wProto NodeList.nil (by decide) (by decide)
    (by decide) (by decide)

/-- Claim C9: for a fixed document, tree and request the visible result of
`localCompletionSource` is the same on any coherent warm cache as on the
cold cache, and its only side effect is that the resulting cache is again
coherent — so two runs of the same request agree. -/
theorem localCompletionSource_cache_oblivious (T : Node) (ctx : CompletionContext)
    (cache : Cmap)
    (hinj : IdsInj T)
    (hsub : ∀ m ∈ ctx.path, subtreeNodes m ⊆ subtreeNodes T)
    (hcoh : Coherent ctx.doc T cache) :
    (localCompletionSource ctx cache).1 = (localCompletionSource ctx []).1 ∧
      Coherent ctx.doc T (localCompletionSource ctx cache).2 := by
  cases hp : ctx.path with
  | nil =>
    rw [localCompletionSource_nil ctx cache hp, localCompletionSource_nil ctx [] hp]
    exact ⟨rfl, hcoh⟩
  | cons inner rest =>
    rw [localCompletionSource_cons ctx cache inner rest hp,
      localCompletionSource_cons ctx [] inner rest hp]
    rw [hp] at hsub
    have hc1 := collectScopes_ok ctx.doc T hinj (inner :: rest) cache hsub hcoh
    have hc2 := collectScopes_ok ctx.doc T hinj (inner :: rest) [] hsub
      (coherent_nil ctx.doc T)
    by_cases h1 : inner.name ∈ dontComplete
    · rw [if_pos h1, if_pos h1]
      exact ⟨rfl, hcoh⟩
    · rw [if_neg h1, if_neg h1]
      by_cases h2 : (!(inner.name == "VariableName" ||
          (decide (inner.nto - inner.nfrom < 20) &&
            Identifier (sliceString ctx.doc inner.nfrom inner.nto))) &&
            !ctx.explicit) = true
      · rw [if_pos h2, if_pos h2]
        exact ⟨rfl, hcoh⟩
      · rw [if_neg h2, if_neg h2]
        rw [hp]
        constructor
        · simp only []
          rw [hc1.1, hc2.1]
        · exact hc1.2

/-- Claim C9 witness: on the concrete tree, running the request on the
warm cache produced by a first run gives the same visible result as the
cold run, and the cache stays coherent. -/
theorem localCompletionSource_cache_oblivious_witness :
    (localCompletionSource wCtx ((localCompletionSource wCtx []).2)).1 =
        (localCompletionSource wCtx []).1 ∧
      Coherent wCtx.doc wRoot
        (localCompletionSource wCtx ((localCompletionSource wCtx []).2)).2 :=
  localCompletionSource_cache_oblivious wRoot wCtx
    ((localCompletionSource wCtx []).2) (by decide) (by decide) (by decide)

/-- Claim C10: a `getScope` call that misses the cache stores, under its
argument node's identity, exactly the list it returns, adds no other entry
under that identity (recursive calls key only strictly smaller subtree
nodes, anonymous ones included), and a later call with the same node hits
the entry instead of recomputing. -/
theorem getScope_miss_writes_single_entry (doc : String) (n : Node) (cache : Cmap)
    (hinj : IdsInj n)
    (hmiss : cmlookup cache n.id = none) :
    cmlookup (getScope doc n cache).2 n.id = some (getScope doc n cache).1 ∧
    (∃ c1, (getScope doc n cache).2 = (n.id, (getScope doc n cache).1) :: c1 ∧
      ∀ e ∈ c1, e.1 ≠ n.id) ∧
    getScope doc n (getScope doc n cache).2 =
      ((getScope doc n cache).1, (getScope doc n cache).2) := by
  refine ⟨getScope_stores doc n cache, ?_,
    getScope_hit doc n _ _ (getScope_stores doc n cache)⟩
  cases n with
  | mk i nm f t ch =>
    simp only [Node.id] at hmiss ⊢
    rw [getScope, hmiss]
    refine ⟨(visitScope doc ch cache).2, rfl, ?_⟩
    intro e he
    obtain ⟨pre, hpre, hids⟩ := visitScope_cache_extends doc ch cache
    rw [hpre] at he
    rcases List.mem_append.mp he with he | he
    · have hmap := hids e he
      obtain ⟨m2, hm2, hm2id⟩ := List.mem_map.mp hmap
      intro heq
      have hm2mem : m2 ∈ subtreeNodes (Node.mk i nm f t ch) := by
        rw [subtreeNodes]
        exact List.mem_cons_of_mem _ hm2
      have hm2eq : m2 = Node.mk i nm f t ch :=
        hinj m2 hm2mem (Node.mk i nm f t ch) (subtreeNodes_self_mem _)
          (by rw [hm2id, heq, Node.id])
      rw [hm2eq] at hm2
      exact not_self_mem_subtreeForest i nm f t ch hm2
    · exact cmlookup_eq_none hmiss e he

/-- Claim C10 witness: on the concrete large-anonymous-node tree, the miss
on the root writes the root entry in front of the recursively written
entry for the anonymous node (id 12), no other entry carries the root's
id, and the follow-up call hits. -/
theorem getScope_miss_writes_single_entry_witness :
    cmlookup (getScope wbDoc wbRoot []).2 wbRoot.id = some (getScope wbDoc wbRoot []).1 ∧
    (∃ c1, (getScope wbDoc wbRoot []).2 = (wbRoot.id, (getScope wbDoc wbRoot []).1) :: c1 ∧
      ∀ e ∈ c1, e.1 ≠ wbRoot.id) ∧
    getScope wbDoc wbRoot (getScope wbDoc wbRoot []).2 =
      ((getScope wbDoc wbRoot []).1, (getScope wbDoc wbRoot []).2) :=
  getScope_miss_writes_single_entry wbDoc wbRoot [] (by decide) (by decide)

end PhpComplete
